import Mathlib

/-!
# Verification of the phrase-neighbor graph generator

A shallow embedding of `src/main.py` (the word-ladder graph builder):
phrases are lists of characters, the dictionary is a list of (lowercase)
words, and the breadth-first graph builder is modelled as a fuel-indexed
state machine whose single step follows the Python loop body.
-/

namespace HammingWeb

/-- Whitespace test used by Python's `str.split()` (ASCII subset). -/
def isWs (c : Char) : Bool := c == ' ' || c == '\t' || c == '\n' || c == '\r'

/-- Scanner for `str.split()`: `acc` holds the characters of the current
token in reverse; a whitespace character closes the token (if nonempty). -/
def splitWsAux : List Char → List Char → List (List Char)
  | acc, [] => if acc.isEmpty then [] else [acc.reverse]
  | acc, c :: cs =>
    if isWs c then
      if acc.isEmpty then splitWsAux [] cs else acc.reverse :: splitWsAux [] cs
    else splitWsAux (c :: acc) cs

/-- Python `str.split()`: split on runs of whitespace, discarding empty parts. -/
def splitWs (l : List Char) : List (List Char) := splitWsAux [] l

/-- Embedding of `is_valid_phrase` from `src/main.py`: split by whitespace, reject the
empty split, and require every part (lowercased) to be in the dictionary. -/
def is_valid_phrase (phrase : List Char) (validWords : List (List Char)) : Bool :=
  let parts := splitWs phrase
  !parts.isEmpty && parts.all fun part => validWords.contains (part.map Char.toLower)

/-- Python's `str.capitalize()`: first character uppercased, the rest lowercased. -/
def capitalize : List Char → List Char
  | [] => []
  | c :: cs => c.toUpper :: cs.map Char.toLower

/-- Model of `' '.join` over a list of words. -/
def joinSpace : List (List Char) → List Char
  | [] => []
  | [w] => w
  | w :: ws => w ++ ' ' :: joinSpace ws

/-- Embedding of `normalize_phrase` from `src/main.py`: capitalize each whitespace-separated
word and rejoin with single spaces. -/
def normalize_phrase (phrase : List Char) : List Char :=
  joinSpace ((splitWs phrase).map capitalize)

/-- Python `string.ascii_lowercase`. -/
def alphabet : List Char := "abcdefghijklmnopqrstuvwxyz".toList

/-- All single-character deletions, in index order. -/
def deletions : List Char → List (List Char)
  | [] => []
  | c :: cs => cs :: (deletions cs).map fun t => c :: t

/-- All single-character substitutions by a different lowercase letter,
skipping space positions, in index-then-alphabet order. -/
def substitutions : List Char → List (List Char)
  | [] => []
  | c :: cs =>
    (if c == ' ' then [] else (alphabet.filter fun a => a != c).map fun a => a :: cs)
      ++ ((substitutions cs).map fun t => c :: t)

/-- All single-character insertions of a lowercase letter, at every position. -/
def insertions : List Char → List (List Char)
  | [] => alphabet.map fun a => [a]
  | c :: cs => (alphabet.map fun a => a :: c :: cs) ++ ((insertions cs).map fun t => c :: t)

/-- Embedding of `get_neighbors` from `src/main.py`: generate deletion, substitution and
insertion candidates over the lowercase form of the phrase, keep the
dictionary-valid ones, normalize them, deduplicate (Python set semantics),
and remove the normalized input itself. -/
def get_neighbors (phrase : List Char) (validWords : List (List Char)) : List (List Char) :=
  let lowerPhrase := phrase.map Char.toLower
  let candidates := deletions lowerPhrase ++ substitutions lowerPhrase ++ insertions lowerPhrase
  let neighbors := ((candidates.filter fun c => is_valid_phrase c validWords).map
    normalize_phrase).dedup
  neighbors.filter fun n => n != normalize_phrase phrase

/-- A directed graph as an insertion-ordered node list and edge list
(`networkx.DiGraph` restricted to what the program uses). -/
structure Graph where
  nodes : List (List Char)
  edges : List (List Char × List Char)
deriving Repr

/-- Model of `DiGraph.add_node`: add a node if not already present. -/
def addNode (G : Graph) (n : List Char) : Graph :=
  if n ∈ G.nodes then G else { G with nodes := G.nodes ++ [n] }

/-- Model of `DiGraph.add_edge`: add both endpoints and the edge, if not present. -/
def addEdge (G : Graph) (u v : List Char) : Graph :=
  let G1 := addNode (addNode G u) v
  if (u, v) ∈ G1.edges then G1 else { G1 with edges := G1.edges ++ [(u, v)] }

/-- Lookup in the `visited` association list (Python dict membership/access). -/
def vlookup (visited : List (List Char × Nat)) (k : List Char) : Option Nat :=
  match visited with
  | [] => none
  | (p, d) :: rest => if k = p then some d else vlookup rest k

/-- State of the breadth-first loop in `generate_graph`: FIFO queue of
(phrase, depth) pairs, the `visited` depth map, and the graph. `expanded`
records each phrase whose neighbors are computed (a trace used only to
state that no phrase is expanded twice). -/
structure BfsState where
  queue : List (List Char × Nat)
  visited : List (List Char × Nat)
  graph : Graph
  expanded : List (List Char)
deriving Repr

/-- Body of `for neighbor in neighbors` in `generate_graph`: a fresh
neighbor is recorded at depth `d + 1`, enqueued and linked; a neighbor
already seen at depth `d + 1` only gains the edge; otherwise nothing. -/
def processNeighbor (cur : List Char) (d : Nat) (t : BfsState) (n : List Char) : BfsState :=
  match vlookup t.visited n with
  | none =>
      { t with
        visited := t.visited ++ [(n, d + 1)]
        queue := t.queue ++ [(n, d + 1)]
        graph := addEdge t.graph cur n }
  | some dn => if dn = d + 1 then { t with graph := addEdge t.graph cur n } else t

/-- The `while queue` loop of `generate_graph`, indexed by fuel (one unit
per dequeue). A dequeued phrase at depth `≥ depth` is skipped; otherwise
its neighbors are folded into the state. -/
def bfsRun (validWords : List (List Char)) (depth : Nat) : Nat → BfsState → BfsState
  | 0, s => s
  | fuel + 1, s =>
    match s.queue with
    | [] => s
    | (cur, d) :: rest =>
      if depth ≤ d then
        bfsRun validWords depth fuel { s with queue := rest }
      else
        bfsRun validWords depth fuel
          ((get_neighbors cur validWords).foldl (processNeighbor cur d)
            { s with queue := rest, expanded := s.expanded ++ [cur] })

/-- Initial state of `generate_graph`: the normalized start phrase seeded
at depth 0 as the single node. -/
def initState (startPhrase : List Char) : BfsState :=
  let start := normalize_phrase startPhrase
  { queue := [(start, 0)], visited := [(start, 0)],
    graph := { nodes := [start], edges := [] }, expanded := [] }

/-- Embedding of `generate_graph` from `src/main.py` (the dictionary is a parameter in
place of the I/O-loaded word list; `fuel` bounds the loop, which in fact
always terminates — see the termination theorem). -/
def generate_graph (startPhrase : List Char) (depth : Nat) (validWords : List (List Char))
    (fuel : Nat) : Graph :=
  (bfsRun validWords depth fuel (initState startPhrase)).graph

/-- Inner recursion of the Levenshtein distance: given `f = editDist xs`,
computes `editDist (x :: xs) ys` by recursion on `ys`. -/
def editDistAux (f : List Char → Nat) (x : Char) : List Char → Nat
  | [] => f [] + 1
  | y :: ys => if x = y then f ys else 1 + min (f (y :: ys)) (min (editDistAux f x ys) (f ys))

/-- Levenshtein edit distance (unit costs) between two character lists. -/
def editDist : List Char → List Char → Nat
  | [], ys => ys.length
  | x :: xs, ys => editDistAux (editDist xs) x ys

/-- Layering invariant of the loop state: every recorded edge goes from a
visited node at some depth `du` to a visited node at depth `du + 1`, and
every queue entry carries exactly its recorded depth. -/
def Inv1 (s : BfsState) : Prop :=
  (∀ e ∈ s.graph.edges,
    ∃ du, vlookup s.visited e.1 = some du ∧ vlookup s.visited e.2 = some (du + 1)) ∧
  ∀ q ∈ s.queue, vlookup s.visited q.1 = some q.2

/-- Queue well-formedness for termination: depths are nondecreasing along
the FIFO queue, bounded by the depth limit, and any two differ by at most 1. -/
def QueueOk (dep : Nat) (q : List (List Char × Nat)) : Prop :=
  q.Pairwise (fun a b => a.2 ≤ b.2) ∧
  (∀ e ∈ q, e.2 ≤ dep) ∧
  ∀ a ∈ q, ∀ b ∈ q, a.2 ≤ b.2 + 1

/-- Primary termination measure: remaining depth budget of the queue front. -/
def qmeasure1 (dep : Nat) (q : List (List Char × Nat)) : Nat :=
  match q with
  | [] => 0
  | (_, d) :: _ => dep + 1 - d

/-- Secondary termination measure: number of queue entries at the front depth. -/
def qmeasure2 (q : List (List Char × Nat)) : Nat :=
  match q with
  | [] => 0
  | (_, d) :: _ => (q.filter fun e => e.2 == d).length

/-- No-reexpansion invariant: the queued phrases and the already-expanded
phrases are pairwise distinct, and all of them are visited keys. -/
def ExpOk (s : BfsState) : Prop :=
  (s.queue.map Prod.fst ++ s.expanded).Nodup ∧
  ∀ x ∈ s.queue.map Prod.fst ++ s.expanded, vlookup s.visited x ≠ none

/-- The concrete dictionary of the spec's worked example. -/
def dictCat : List (List Char) := ["cat", "bat", "cot", "car", "at", "cats"].map String.toList

/-- A dictionary exhibiting whitespace merging on deletion. -/
def dictAXB : List (List Char) := ["a", "x", "b"].map String.toList

theorem editDist_nil_left (ys : List Char) : editDist [] ys = ys.length := rfl

theorem editDist_nil_right (xs : List Char) : editDist xs [] = xs.length := by
  induction xs with
  | nil => rfl
  | cons x xs ih =>
    show editDist xs [] + 1 = xs.length + 1
    rw [ih]

theorem editDist_cons_cons (x y : Char) (xs ys : List Char) :
    editDist (x :: xs) (y :: ys) =
      if x = y then editDist xs ys
      else 1 + min (editDist xs (y :: ys)) (min (editDist (x :: xs) ys) (editDist xs ys)) :=
  rfl

/-! ## Character-level lemmas -/

theorem char_toNat_inj {a b : Char} (h : a.toNat = b.toNat) : a = b :=
  Char.ext (UInt32.toNat.inj h)

theorem char_toNat_ofNat {n : Nat} (h : n.isValidChar) : (Char.ofNat n).toNat = n := by
  rw [Char.ofNat, dif_pos h]
  rfl

theorem toNat_toUpper (c : Char) :
    c.toUpper.toNat = if 97 ≤ c.toNat ∧ c.toNat ≤ 122 then c.toNat - 32 else c.toNat := by
  simp only [Char.toUpper, ge_iff_le]
  split
  · rename_i h
    exact char_toNat_ofNat (Or.inl (by omega))
  · rfl

theorem toNat_toLower (c : Char) :
    c.toLower.toNat = if 65 ≤ c.toNat ∧ c.toNat ≤ 90 then c.toNat + 32 else c.toNat := by
  simp only [Char.toLower, ge_iff_le]
  split
  · rename_i h
    exact char_toNat_ofNat (Or.inl (by omega))
  · rfl

theorem toLower_toLower (c : Char) : c.toLower.toLower = c.toLower := by
  apply char_toNat_inj
  simp only [toNat_toLower]
  split_ifs <;> omega

theorem toUpper_toUpper (c : Char) : c.toUpper.toUpper = c.toUpper := by
  apply char_toNat_inj
  simp only [toNat_toUpper]
  split_ifs <;> omega

theorem toLower_toUpper (c : Char) : c.toUpper.toLower = c.toLower := by
  apply char_toNat_inj
  simp only [toNat_toLower, toNat_toUpper]
  split_ifs <;> omega

theorem isWs_iff {c : Char} :
    isWs c = true ↔ c.toNat = 32 ∨ c.toNat = 9 ∨ c.toNat = 10 ∨ c.toNat = 13 := by
  simp only [isWs, Bool.or_eq_true, beq_iff_eq]
  constructor
  · rintro (((rfl | rfl) | rfl) | rfl) <;> decide
  · rintro (h | h | h | h)
    · exact Or.inl (Or.inl (Or.inl (char_toNat_inj h)))
    · exact Or.inl (Or.inl (Or.inr (char_toNat_inj h)))
    · exact Or.inl (Or.inr (char_toNat_inj h))
    · exact Or.inr (char_toNat_inj h)

theorem isWs_toLower (c : Char) : isWs c.toLower = isWs c := by
  rcases hl : isWs c.toLower <;> rcases hc : isWs c <;> try rfl
  · rw [isWs_iff] at hc
    have := (@isWs_iff c.toLower).not.mp (by simp [hl])
    rw [toNat_toLower] at this
    exfalso
    revert this
    split <;> simp <;> omega
  · rw [isWs_iff] at hl
    rw [toNat_toLower] at hl
    have := (@isWs_iff c).not.mp (by simp [hc])
    exfalso
    revert hl
    split <;> simp <;> omega

theorem isWs_toUpper (c : Char) : isWs c.toUpper = isWs c := by
  rcases hl : isWs c.toUpper <;> rcases hc : isWs c <;> try rfl
  · rw [isWs_iff] at hc
    have := (@isWs_iff c.toUpper).not.mp (by simp [hl])
    rw [toNat_toUpper] at this
    exfalso
    revert this
    split <;> simp <;> omega
  · rw [isWs_iff] at hl
    rw [toNat_toUpper] at hl
    have := (@isWs_iff c).not.mp (by simp [hc])
    exfalso
    revert hl
    split <;> simp <;> omega

/-! ## Splitting, joining and normalization -/

theorem splitWs_nil : splitWs [] = [] := rfl

theorem splitWs_cons_ws {c : Char} (cs : List Char) (h : isWs c = true) :
    splitWs (c :: cs) = splitWs cs := by
  simp [splitWs, splitWsAux, h]

theorem splitWsAux_acc (l : List Char) : ∀ acc : List Char, acc ≠ [] →
    splitWsAux acc l = (acc.reverse ++ l.takeWhile fun x => !isWs x) ::
      splitWsAux [] (l.dropWhile fun x => !isWs x) := by
  induction l with
  | nil =>
    intro acc hacc
    simp [splitWsAux, List.isEmpty_iff, hacc]
  | cons c cs ih =>
    intro acc hacc
    by_cases hc : isWs c
    · rw [splitWsAux, if_pos hc, if_neg (by simp [List.isEmpty_iff, hacc]),
        List.takeWhile_cons_of_neg (by simp [hc]), List.dropWhile_cons_of_neg (by simp [hc])]
      rw [show splitWsAux [] (c :: cs) = splitWsAux [] cs by simp [splitWsAux, hc]]
      simp
    · rw [splitWsAux, if_neg hc, ih (c :: acc) (List.cons_ne_nil _ _),
        List.takeWhile_cons_of_pos (by simp [hc]), List.dropWhile_cons_of_pos (by simp [hc])]
      simp

theorem splitWs_cons_nonws {c : Char} (cs : List Char) (h : isWs c = false) :
    splitWs (c :: cs) = (c :: cs.takeWhile fun x => !isWs x) ::
      splitWs (cs.dropWhile fun x => !isWs x) := by
  rw [splitWs, splitWsAux, if_neg (by simp [h]), splitWsAux_acc cs [c] (List.cons_ne_nil _ _)]
  rfl

theorem splitWsAux_tokens (l : List Char) : ∀ acc : List Char, (∀ c ∈ acc, isWs c = false) →
    ∀ t ∈ splitWsAux acc l, t ≠ [] ∧ ∀ c ∈ t, isWs c = false := by
  induction l with
  | nil =>
    intro acc hacc t ht
    rw [splitWsAux] at ht
    split at ht
    · simp at ht
    · rename_i hne
      rw [List.mem_singleton] at ht
      subst ht
      refine ⟨by simpa [List.isEmpty_iff] using hne, ?_⟩
      intro c hc
      exact hacc c (List.mem_reverse.mp hc)
  | cons c cs ih =>
    intro acc hacc t ht
    rw [splitWsAux] at ht
    by_cases hc : isWs c
    · rw [if_pos hc] at ht
      split at ht
      · exact ih [] (by simp) t ht
      · rename_i hne
        rcases List.mem_cons.mp ht with rfl | ht'
        · refine ⟨by simpa [List.isEmpty_iff] using hne, ?_⟩
          intro x hx
          exact hacc x (List.mem_reverse.mp hx)
        · exact ih [] (by simp) t ht'
    · rw [if_neg hc] at ht
      refine ih (c :: acc) ?_ t ht
      intro x hx
      rcases List.mem_cons.mp hx with rfl | hx'
      · exact Bool.of_not_eq_true hc
      · exact hacc x hx'

theorem splitWs_tokens (l : List Char) :
    ∀ t ∈ splitWs l, t ≠ [] ∧ ∀ c ∈ t, isWs c = false :=
  splitWsAux_tokens l [] (by simp)

theorem splitWs_token_append (c : Char) (t r : List Char) (hc : isWs c = false)
    (ht : ∀ x ∈ t, isWs x = false) :
    splitWs (c :: t ++ r) =
      ((c :: t) ++ r.takeWhile fun x => !isWs x) :: splitWs (r.dropWhile fun x => !isWs x) := by
  have hpos : ∀ x ∈ t, (fun x => !isWs x) x = true := by
    intro x hx
    simp [ht x hx]
  rw [List.cons_append, splitWs_cons_nonws _ hc,
    List.takeWhile_append_of_pos hpos, List.dropWhile_append_of_pos hpos]
  simp

theorem splitWs_join (ts : List (List Char))
    (h : ∀ t ∈ ts, t ≠ [] ∧ ∀ c ∈ t, isWs c = false) :
    splitWs (joinSpace ts) = ts := by
  induction ts with
  | nil => simp [joinSpace, splitWs, splitWsAux]
  | cons t ts ih =>
    obtain ⟨hne, hnws⟩ := h t (List.mem_cons_self t ts)
    obtain ⟨c, t₀, rfl⟩ := List.exists_cons_of_ne_nil hne
    have hc : isWs c = false := hnws c (List.mem_cons_self _ _)
    have ht₀ : ∀ x ∈ t₀, isWs x = false := fun x hx => hnws x (List.mem_cons_of_mem _ hx)
    cases ts with
    | nil =>
      show splitWs (c :: t₀) = [c :: t₀]
      have := splitWs_token_append c t₀ [] hc ht₀
      simpa [splitWs, splitWsAux] using this
    | cons t' ts' =>
      show splitWs ((c :: t₀) ++ ' ' :: joinSpace (t' :: ts')) = _
      rw [show (c :: t₀) ++ ' ' :: joinSpace (t' :: ts') =
        c :: t₀ ++ ' ' :: joinSpace (t' :: ts') from rfl]
      rw [splitWs_token_append c t₀ _ hc ht₀]
      have hsp : isWs ' ' = true := rfl
      rw [List.takeWhile_cons_of_neg (by simp [hsp]), List.dropWhile_cons_of_neg (by simp [hsp])]
      rw [splitWs_cons_ws _ hsp]
      rw [ih (fun x hx => h x (List.mem_cons_of_mem _ hx))]
      simp

theorem capitalize_ne_nil {t : List Char} (h : t ≠ []) : capitalize t ≠ [] := by
  obtain ⟨c, t₀, rfl⟩ := List.exists_cons_of_ne_nil h
  simp [capitalize]

theorem capitalize_nonws {t : List Char} (h : ∀ c ∈ t, isWs c = false) :
    ∀ c ∈ capitalize t, isWs c = false := by
  cases t with
  | nil => simp [capitalize]
  | cons c cs =>
    intro x hx
    rcases List.mem_cons.mp hx with rfl | hx'
    · rw [isWs_toUpper]
      exact h c (List.mem_cons_self _ _)
    · obtain ⟨y, hy, rfl⟩ := List.mem_map.mp hx'
      rw [isWs_toLower]
      exact h y (List.mem_cons_of_mem _ hy)

theorem capitalize_capitalize (t : List Char) : capitalize (capitalize t) = capitalize t := by
  cases t with
  | nil => rfl
  | cons c cs =>
    simp only [capitalize, toUpper_toUpper, List.map_map, List.cons.injEq, true_and]
    simp [Function.comp, toLower_toLower]

theorem map_toLower_capitalize (t : List Char) :
    (capitalize t).map Char.toLower = t.map Char.toLower := by
  cases t with
  | nil => rfl
  | cons c cs =>
    simp only [capitalize, List.map_cons, toLower_toUpper, List.map_map, List.cons.injEq, true_and]
    simp [Function.comp, toLower_toLower]

theorem splitWs_normalize (p : List Char) :
    splitWs (normalize_phrase p) = (splitWs p).map capitalize := by
  apply splitWs_join
  intro t ht
  obtain ⟨u, hu, rfl⟩ := List.mem_map.mp ht
  obtain ⟨hne, hnws⟩ := splitWs_tokens p u hu
  exact ⟨capitalize_ne_nil hne, capitalize_nonws hnws⟩

/-! ## Validity and normalization: claims C2, C3, C7, C8, C10 -/

theorem is_valid_phrase_iff {p : List Char} {D : List (List Char)} :
    is_valid_phrase p D = true ↔
      splitWs p ≠ [] ∧ ∀ t ∈ splitWs p, t.map Char.toLower ∈ D := by
  simp [is_valid_phrase, List.isEmpty_iff, List.all_eq_true, List.elem_iff]

theorem isEmpty_map {α β : Type} (f : α → β) (l : List α) : (l.map f).isEmpty = l.isEmpty := by
  cases l <;> rfl

theorem is_valid_normalize (p : List Char) (D : List (List Char)) :
    is_valid_phrase (normalize_phrase p) D = is_valid_phrase p D := by
  simp only [is_valid_phrase, splitWs_normalize, List.all_map, isEmpty_map]
  simp only [Function.comp_def, map_toLower_capitalize]

/-- C7: `normalize_phrase` is idempotent. -/
theorem normalize_phrase_idempotent (p : List Char) :
    normalize_phrase (normalize_phrase p) = normalize_phrase p := by
  show joinSpace ((splitWs (normalize_phrase p)).map capitalize) = normalize_phrase p
  rw [splitWs_normalize, List.map_map]
  simp only [Function.comp_def, capitalize_capitalize]
  rfl

/-- C10: dictionary validity is invariant under normalization:
`is_valid_phrase (normalize_phrase p) D = is_valid_phrase p D`. -/
theorem is_valid_phrase_normalize_invariant (p : List Char) (D : List (List Char)) :
    is_valid_phrase (normalize_phrase p) D = is_valid_phrase p D :=
  is_valid_normalize p D

/-- C2: the normalized input is never an element of its own neighbor set. -/
theorem get_neighbors_no_self_loop (p : List Char) (D : List (List Char)) :
    (get_neighbors p D).contains (normalize_phrase p) = false := by
  rw [Bool.eq_false_iff]
  intro hc
  have hmem := List.elem_iff.mp hc
  simp only [get_neighbors, List.mem_filter, bne_iff_ne, ne_eq] at hmem
  exact hmem.2 trivial

/-- C3: every element returned by `get_neighbors` is dictionary-valid. -/
theorem get_neighbors_valid (p : List Char) (D : List (List Char)) :
    ∀ n ∈ get_neighbors p D, is_valid_phrase n D = true := by
  intro n hn
  simp only [get_neighbors, List.mem_filter] at hn
  obtain ⟨hmem, _⟩ := hn
  rw [List.mem_dedup] at hmem
  obtain ⟨c, hc, rfl⟩ := List.mem_map.mp hmem
  obtain ⟨_, hvalid⟩ := List.mem_filter.mp hc
  rw [is_valid_normalize]
  exact hvalid

/-- Witness for C3 at a concrete input: "At" is a neighbor of "Cat" and is valid. -/
theorem get_neighbors_valid_witness :
    is_valid_phrase "At".toList dictCat = true :=
  get_neighbors_valid "Cat".toList dictCat "At".toList (by decide)

/-- C8: `is_valid_phrase` returns `false` on a phrase whose whitespace split
is empty, and otherwise is `true` exactly when every token, lowercased, is
in the dictionary. -/
theorem is_valid_phrase_spec (p : List Char) (D : List (List Char)) :
    (splitWs p = [] → is_valid_phrase p D = false) ∧
    (is_valid_phrase p D = true ↔
      splitWs p ≠ [] ∧ ∀ t ∈ splitWs p, t.map Char.toLower ∈ D) := by
  constructor
  · intro h
    simp [is_valid_phrase, h]
  · exact is_valid_phrase_iff

/-- Witness for C8: the whitespace-only phrase `" "` is invalid over any
dictionary, and `"cat bat"` is valid over the example dictionary. -/
theorem is_valid_phrase_spec_witness :
    is_valid_phrase " ".toList dictCat = false ∧
      is_valid_phrase "cat bat".toList dictCat = true := by
  constructor
  · exact (is_valid_phrase_spec " ".toList dictCat).1 (by decide)
  · exact (is_valid_phrase_spec "cat bat".toList dictCat).2.mpr (by decide)

/-! ## The breadth-first loop: basic step lemmas, claims C5 and C6 -/

theorem bfsRun_queue_nil {V : List (List Char)} {dep fuel : Nat} {s : BfsState}
    (h : s.queue = []) : bfsRun V dep fuel s = s := by
  cases fuel with
  | zero => rfl
  | succ n =>
    rw [bfsRun, h]

theorem bfsRun_succ_skip {V : List (List Char)} {dep fuel d : Nat} {cur : List Char}
    {rest : List (List Char × Nat)} {s : BfsState}
    (hq : s.queue = (cur, d) :: rest) (hd : dep ≤ d) :
    bfsRun V dep (fuel + 1) s = bfsRun V dep fuel { s with queue := rest } := by
  rw [bfsRun, hq]
  simp [hd]

theorem bfsRun_succ_expand {V : List (List Char)} {dep fuel d : Nat} {cur : List Char}
    {rest : List (List Char × Nat)} {s : BfsState}
    (hq : s.queue = (cur, d) :: rest) (hd : ¬ dep ≤ d) :
    bfsRun V dep (fuel + 1) s = bfsRun V dep fuel
      ((get_neighbors cur V).foldl (processNeighbor cur d)
        { s with queue := rest, expanded := s.expanded ++ [cur] }) := by
  rw [bfsRun, hq]
  simp [hd]

/-- C6: at depth bound 0 the generated graph is the single node
`normalize_phrase p` with no edges, over any dictionary (and any fuel). -/
theorem generate_graph_depth_zero (p : List Char) (D : List (List Char)) (fuel : Nat) :
    (generate_graph p 0 D fuel).nodes = [normalize_phrase p] ∧
      (generate_graph p 0 D fuel).edges = [] := by
  unfold generate_graph
  cases fuel with
  | zero => exact ⟨rfl, rfl⟩
  | succ n =>
    rw [bfsRun_succ_skip
      (show (initState p).queue = (normalize_phrase p, 0) :: [] from rfl) (Nat.le_refl 0),
      bfsRun_queue_nil rfl]
    exact ⟨rfl, rfl⟩

/-- C5: over the dictionary {cat, bat, cot, car, at, cats}, the neighbors of
"Cat" are exactly At, Bat, Cot, Car, Cats, and the depth-1 graph has those
six nodes and five edges, all with source "Cat" (the run also completes:
its queue is empty). -/
theorem concrete_cat_scenario :
    get_neighbors "Cat".toList dictCat =
      ["At".toList, "Bat".toList, "Cot".toList, "Car".toList, "Cats".toList] ∧
    (generate_graph "Cat".toList 1 dictCat 10).nodes =
      ["Cat".toList, "At".toList, "Bat".toList, "Cot".toList, "Car".toList, "Cats".toList] ∧
    (generate_graph "Cat".toList 1 dictCat 10).edges =
      [("Cat".toList, "At".toList), ("Cat".toList, "Bat".toList), ("Cat".toList, "Cot".toList),
        ("Cat".toList, "Car".toList), ("Cat".toList, "Cats".toList)] ∧
    (bfsRun dictCat 1 10 (initState "Cat".toList)).queue = [] := by
  decide

/-! ## Edit distance: claim C4 -/

theorem editDist_self (l : List Char) : editDist l l = 0 := by
  induction l with
  | nil => rfl
  | cons x xs ih => rw [editDist_cons_cons, if_pos rfl, ih]

theorem editDist_eq_zero {a b : List Char} (h : editDist a b = 0) : a = b := by
  induction a generalizing b with
  | nil =>
    cases b with
    | nil => rfl
    | cons y ys => simp [editDist_nil_left] at h
  | cons x xs ih =>
    cases b with
    | nil =>
      rw [editDist_nil_right] at h
      simp at h
    | cons y ys =>
      rw [editDist_cons_cons] at h
      split at h
      · rename_i hxy
        subst hxy
        rw [ih h]
      · omega

theorem editDist_cons_right_le (l : List Char) : ∀ x : Char, editDist l (x :: l) ≤ 1 := by
  induction l with
  | nil =>
    intro x
    simp [editDist_nil_left]
  | cons y ys ih =>
    intro x
    rw [editDist_cons_cons]
    by_cases h : y = x
    · rw [if_pos h]
      subst h
      exact ih y
    · rw [if_neg h, editDist_self]
      simp

theorem editDist_cons_left_le (l : List Char) : ∀ x : Char, editDist (x :: l) l ≤ 1 := by
  induction l with
  | nil =>
    intro x
    simp [editDist_nil_right]
  | cons y ys ih =>
    intro x
    rw [editDist_cons_cons]
    by_cases h : x = y
    · rw [if_pos h]
      exact ih y
    · rw [if_neg h, editDist_self]
      simp

theorem editDist_sub_cons_le (l₂ : List Char) (a x : Char) :
    editDist (a :: l₂) (x :: l₂) ≤ 1 := by
  rw [editDist_cons_cons]
  by_cases h : a = x
  · rw [if_pos h, editDist_self]
    omega
  · rw [if_neg h, editDist_self]
    simp

theorem editDist_del_append_le (l₁ l₂ : List Char) (x : Char) :
    editDist (l₁ ++ l₂) (l₁ ++ x :: l₂) ≤ 1 := by
  induction l₁ with
  | nil => exact editDist_cons_right_le l₂ x
  | cons c cs ih =>
    rw [List.cons_append, List.cons_append, editDist_cons_cons, if_pos rfl]
    exact ih

theorem editDist_ins_append_le (l₁ l₂ : List Char) (x : Char) :
    editDist (l₁ ++ x :: l₂) (l₁ ++ l₂) ≤ 1 := by
  induction l₁ with
  | nil => exact editDist_cons_left_le l₂ x
  | cons c cs ih =>
    rw [List.cons_append, List.cons_append, editDist_cons_cons, if_pos rfl]
    exact ih

theorem editDist_sub_append_le (l₁ l₂ : List Char) (a x : Char) :
    editDist (l₁ ++ a :: l₂) (l₁ ++ x :: l₂) ≤ 1 := by
  induction l₁ with
  | nil => exact editDist_sub_cons_le l₂ a x
  | cons c cs ih =>
    rw [List.cons_append, List.cons_append, editDist_cons_cons, if_pos rfl]
    exact ih

theorem editDist_deletion (l₁ l₂ : List Char) (x : Char) :
    editDist (l₁ ++ l₂) (l₁ ++ x :: l₂) = 1 := by
  have hle := editDist_del_append_le l₁ l₂ x
  have hne : l₁ ++ l₂ ≠ l₁ ++ x :: l₂ := by
    intro he
    have := congrArg List.length he
    simp at this
  have h0 : editDist (l₁ ++ l₂) (l₁ ++ x :: l₂) ≠ 0 := fun h => hne (editDist_eq_zero h)
  omega

theorem editDist_insertion (l₁ l₂ : List Char) (x : Char) :
    editDist (l₁ ++ x :: l₂) (l₁ ++ l₂) = 1 := by
  have hle := editDist_ins_append_le l₁ l₂ x
  have hne : l₁ ++ x :: l₂ ≠ l₁ ++ l₂ := by
    intro he
    have := congrArg List.length he
    simp at this
  have h0 : editDist (l₁ ++ x :: l₂) (l₁ ++ l₂) ≠ 0 := fun h => hne (editDist_eq_zero h)
  omega

theorem editDist_substitution (l₁ l₂ : List Char) (a x : Char) (hax : a ≠ x) :
    editDist (l₁ ++ a :: l₂) (l₁ ++ x :: l₂) = 1 := by
  have hle := editDist_sub_append_le l₁ l₂ a x
  have hne : l₁ ++ a :: l₂ ≠ l₁ ++ x :: l₂ := by
    intro he
    exact hax (List.cons.injEq .. ▸ List.append_cancel_left he).1
  have h0 : editDist (l₁ ++ a :: l₂) (l₁ ++ x :: l₂) ≠ 0 := fun h => hne (editDist_eq_zero h)
  omega

theorem mem_deletions {l c : List Char} (h : c ∈ deletions l) :
    ∃ l₁ x l₂, l = l₁ ++ x :: l₂ ∧ c = l₁ ++ l₂ := by
  induction l generalizing c with
  | nil => simp [deletions] at h
  | cons a as ih =>
    rw [deletions] at h
    rcases List.mem_cons.mp h with rfl | h'
    · exact ⟨[], a, c, rfl, rfl⟩
    · obtain ⟨t, ht, rfl⟩ := List.mem_map.mp h'
      obtain ⟨l₁, x, l₂, hl, hc⟩ := ih ht
      exact ⟨a :: l₁, x, l₂, by rw [hl]; rfl, by rw [hc]; rfl⟩

theorem mem_substitutions {l c : List Char} (h : c ∈ substitutions l) :
    ∃ l₁ x l₂ a, l = l₁ ++ x :: l₂ ∧ c = l₁ ++ a :: l₂ ∧ a ≠ x := by
  induction l generalizing c with
  | nil => simp [substitutions] at h
  | cons y ys ih =>
    rw [substitutions] at h
    rcases List.mem_append.mp h with h' | h'
    · split at h'
      · simp at h'
      · obtain ⟨a, ha, rfl⟩ := List.mem_map.mp h'
        have hane : a ≠ y := by
          have := (List.mem_filter.mp ha).2
          simpa [bne_iff_ne] using this
        exact ⟨[], y, ys, a, rfl, rfl, hane⟩
    · obtain ⟨t, ht, rfl⟩ := List.mem_map.mp h'
      obtain ⟨l₁, x, l₂, a, hl, hc, hax⟩ := ih ht
      exact ⟨y :: l₁, x, l₂, a, by rw [hl]; rfl, by rw [hc]; rfl, hax⟩

theorem mem_insertions {l c : List Char} (h : c ∈ insertions l) :
    ∃ l₁ l₂ a, l = l₁ ++ l₂ ∧ c = l₁ ++ a :: l₂ := by
  induction l generalizing c with
  | nil =>
    rw [insertions] at h
    obtain ⟨a, _, rfl⟩ := List.mem_map.mp h
    exact ⟨[], [], a, rfl, rfl⟩
  | cons y ys ih =>
    rw [insertions] at h
    rcases List.mem_append.mp h with h' | h'
    · obtain ⟨a, _, rfl⟩ := List.mem_map.mp h'
      exact ⟨[], y :: ys, a, rfl, rfl⟩
    · obtain ⟨t, ht, rfl⟩ := List.mem_map.mp h'
      obtain ⟨l₁, l₂, a, hl, hc⟩ := ih ht
      exact ⟨y :: l₁, l₂, a, by rw [hl]; rfl, by rw [hc]; rfl⟩

/-- C4 is false as stated: over the dictionary {a, x, b}, `get_neighbors`
on "a x b" returns "A B" (deleting the 'x' merges the two spaces, and
normalization collapses them), whose case-insensitive edit distance to the
input is 2, not 1. -/
theorem get_neighbors_edit_distance_counterexample :
    "A B".toList ∈ get_neighbors "a x b".toList dictAXB ∧
      editDist ("A B".toList.map Char.toLower) ("a x b".toList.map Char.toLower) = 2 := by
  decide

/-- C4 (amended): every returned neighbor is the normalization of some raw
candidate string whose edit distance to the lowercased input is exactly 1
(the distance-1 property holds for the raw candidate, before normalization
collapses whitespace). -/
theorem get_neighbors_edit_distance_amended (p : List Char) (D : List (List Char)) :
    ∀ n ∈ get_neighbors p D,
      ∃ c, editDist c (p.map Char.toLower) = 1 ∧ n = normalize_phrase c := by
  intro n hn
  simp only [get_neighbors, List.mem_filter] at hn
  obtain ⟨hmem, _⟩ := hn
  rw [List.mem_dedup] at hmem
  obtain ⟨c, hc, rfl⟩ := List.mem_map.mp hmem
  obtain ⟨hcand, _⟩ := List.mem_filter.mp hc
  refine ⟨c, ?_, rfl⟩
  rcases List.mem_append.mp hcand with h' | hins
  · rcases List.mem_append.mp h' with hdel | hsub
    · obtain ⟨l₁, x, l₂, hl, rfl⟩ := mem_deletions hdel
      rw [hl]
      exact editDist_deletion l₁ l₂ x
    · obtain ⟨l₁, x, l₂, a, hl, rfl, hax⟩ := mem_substitutions hsub
      rw [hl]
      exact editDist_substitution l₁ l₂ a x hax
  · obtain ⟨l₁, l₂, a, hl, rfl⟩ := mem_insertions hins
    rw [hl]
    exact editDist_insertion l₁ l₂ a

/-- Witness for the amended C4 at a concrete input: the neighbor "At" of
"Cat" arises from a candidate at edit distance 1 from "cat". -/
theorem get_neighbors_edit_distance_amended_witness :
    ∃ c, editDist c ("Cat".toList.map Char.toLower) = 1 ∧ "At".toList = normalize_phrase c :=
  get_neighbors_edit_distance_amended "Cat".toList dictCat "At".toList (by decide)

/-! ## Visited-map and graph lemmas -/

theorem vlookup_append_some {v : List (List Char × Nat)} {k : List Char} {r : Nat}
    (w : List (List Char × Nat)) (h : vlookup v k = some r) : vlookup (v ++ w) k = some r := by
  induction v with
  | nil => simp [vlookup] at h
  | cons hd tl ih =>
    obtain ⟨q, dq⟩ := hd
    rw [vlookup] at h
    rw [List.cons_append, vlookup]
    by_cases hk : k = q
    · rw [if_pos hk] at h ⊢
      exact h
    · rw [if_neg hk] at h ⊢
      exact ih h

theorem vlookup_append_none {v : List (List Char × Nat)} {k : List Char}
    (w : List (List Char × Nat)) (h : vlookup v k = none) :
    vlookup (v ++ w) k = vlookup w k := by
  induction v with
  | nil => rfl
  | cons hd tl ih =>
    obtain ⟨q, dq⟩ := hd
    rw [vlookup] at h
    rw [List.cons_append, vlookup]
    by_cases hk : k = q
    · rw [if_pos hk] at h
      cases h
    · rw [if_neg hk] at h
      rw [if_neg hk]
      exact ih h

theorem vlookup_prefix_none {v w : List (List Char × Nat)} {k : List Char}
    (h : vlookup (v ++ w) k = none) : vlookup v k = none := by
  cases hv : vlookup v k with
  | none => rfl
  | some r =>
    rw [vlookup_append_some w hv] at h
    cases h

theorem vlookup_ne_none_of_mem_keys {w : List (List Char × Nat)} {k : List Char}
    (h : k ∈ w.map Prod.fst) : vlookup w k ≠ none := by
  induction w with
  | nil => simp at h
  | cons hd tl ih =>
    obtain ⟨q, dq⟩ := hd
    rw [vlookup]
    by_cases hk : k = q
    · rw [if_pos hk]
      simp
    · rw [if_neg hk]
      apply ih
      rw [List.map_cons, List.mem_cons] at h
      rcases h with h' | h'
      · exact absurd h' hk
      · exact h'

theorem edges_addNode (G : Graph) (n : List Char) : (addNode G n).edges = G.edges := by
  unfold addNode
  split <;> rfl

theorem mem_edges_addEdge {G : Graph} {u v : List Char} {e : List Char × List Char} :
    e ∈ (addEdge G u v).edges ↔ e ∈ G.edges ∨ e = (u, v) := by
  have hrw : addEdge G u v =
      if (u, v) ∈ (addNode (addNode G u) v).edges then addNode (addNode G u) v
      else { addNode (addNode G u) v with
              edges := (addNode (addNode G u) v).edges ++ [(u, v)] } := rfl
  rw [hrw]
  by_cases hmem : (u, v) ∈ (addNode (addNode G u) v).edges
  · rw [if_pos hmem, edges_addNode, edges_addNode]
    rw [edges_addNode, edges_addNode] at hmem
    constructor
    · exact fun h => Or.inl h
    · rintro (h | rfl)
      · exact h
      · exact hmem
  · rw [if_neg hmem]
    rw [edges_addNode, edges_addNode] at hmem
    show e ∈ (addNode (addNode G u) v).edges ++ [(u, v)] ↔ _
    rw [edges_addNode, edges_addNode]
    simp [List.mem_append]

/-! ## The effect of one neighbor fold -/

theorem processNeighbor_of_some {cur : List Char} {d : Nat} {t : BfsState} {n : List Char}
    {dn : Nat} (h : vlookup t.visited n = some dn) :
    (processNeighbor cur d t n).queue = t.queue ∧
    (processNeighbor cur d t n).visited = t.visited ∧
    (processNeighbor cur d t n).expanded = t.expanded := by
  by_cases hdn : dn = d + 1 <;> simp [processNeighbor, h, hdn]

theorem foldl_processNeighbor_shape (cur : List Char) (d : Nat) (ns : List (List Char)) :
    ∀ t : BfsState,
      ∃ new : List (List Char × Nat),
        (ns.foldl (processNeighbor cur d) t).queue = t.queue ++ new ∧
        (ns.foldl (processNeighbor cur d) t).visited = t.visited ++ new ∧
        (ns.foldl (processNeighbor cur d) t).expanded = t.expanded ∧
        (∀ e ∈ new, e.2 = d + 1) ∧
        (∀ e ∈ new, vlookup t.visited e.1 = none) ∧
        (new.map Prod.fst).Nodup := by
  induction ns with
  | nil =>
    intro t
    exact ⟨[], by simp, by simp, rfl, by simp, by simp, by simp⟩
  | cons n ns ih =>
    intro t
    rw [List.foldl_cons]
    obtain ⟨new, hq, hv, he, hd2, hfresh, hnd⟩ := ih (processNeighbor cur d t n)
    cases hn : vlookup t.visited n with
    | some dn =>
      obtain ⟨h1, h2, h3⟩ := @processNeighbor_of_some cur d t n _ hn
      refine ⟨new, ?_, ?_, ?_, hd2, ?_, hnd⟩
      · rw [hq, h1]
      · rw [hv, h2]
      · rw [he, h3]
      · intro e hee
        have := hfresh e hee
        rw [h2] at this
        exact this
    | none =>
      have h1 : (processNeighbor cur d t n).queue = t.queue ++ [(n, d + 1)] := by
        simp [processNeighbor, hn]
      have h2 : (processNeighbor cur d t n).visited = t.visited ++ [(n, d + 1)] := by
        simp [processNeighbor, hn]
      have h3 : (processNeighbor cur d t n).expanded = t.expanded := by
        simp [processNeighbor, hn]
      refine ⟨(n, d + 1) :: new, ?_, ?_, ?_, ?_, ?_, ?_⟩
      · rw [hq, h1, List.append_assoc]
        rfl
      · rw [hv, h2, List.append_assoc]
        rfl
      · rw [he, h3]
      · intro e hee
        rcases List.mem_cons.mp hee with rfl | hee'
        · rfl
        · exact hd2 e hee'
      · intro e hee
        rcases List.mem_cons.mp hee with rfl | hee'
        · exact hn
        · have := hfresh e hee'
          rw [h2] at this
          exact vlookup_prefix_none this
      · rw [List.map_cons, List.nodup_cons]
        refine ⟨?_, hnd⟩
        intro hmem
        have hfr : vlookup (processNeighbor cur d t n).visited n = none := by
          obtain ⟨e, hee, hfst⟩ := List.mem_map.mp hmem
          have := hfresh e hee
          rw [hfst] at this
          exact this
        rw [h2, vlookup_append_none _ hn] at hfr
        rw [vlookup, if_pos rfl] at hfr
        cases hfr

/-! ## The layering invariant: claim C1 -/

theorem processNeighbor_inv1 {cur : List Char} {d : Nat} {t : BfsState} (n : List Char)
    (hcur : vlookup t.visited cur = some d) (h : Inv1 t) :
    Inv1 (processNeighbor cur d t n) ∧
      vlookup (processNeighbor cur d t n).visited cur = some d := by
  obtain ⟨hE, hQ⟩ := h
  cases hn : vlookup t.visited n with
  | none =>
    have hq1 : (processNeighbor cur d t n).queue = t.queue ++ [(n, d + 1)] := by
      simp [processNeighbor, hn]
    have hv1 : (processNeighbor cur d t n).visited = t.visited ++ [(n, d + 1)] := by
      simp [processNeighbor, hn]
    have hg1 : (processNeighbor cur d t n).graph = addEdge t.graph cur n := by
      simp [processNeighbor, hn]
    have hlookn : vlookup (t.visited ++ [(n, d + 1)]) n = some (d + 1) := by
      rw [vlookup_append_none _ hn, vlookup, if_pos rfl]
    refine ⟨⟨?_, ?_⟩, ?_⟩
    · intro e he
      rw [hg1] at he
      rw [hv1]
      rcases mem_edges_addEdge.mp he with he' | rfl
      · obtain ⟨du, h1, h2⟩ := hE e he'
        exact ⟨du, vlookup_append_some _ h1, vlookup_append_some _ h2⟩
      · exact ⟨d, vlookup_append_some _ hcur, hlookn⟩
    · intro q hq
      rw [hq1] at hq
      rw [hv1]
      rcases List.mem_append.mp hq with hq' | hq'
      · exact vlookup_append_some _ (hQ q hq')
      · rw [List.mem_singleton] at hq'
        subst hq'
        exact hlookn
    · rw [hv1]
      exact vlookup_append_some _ hcur
  | some dn =>
    obtain ⟨hq1, hv1, _⟩ := @processNeighbor_of_some cur d t n _ hn
    by_cases hdn : dn = d + 1
    · have hg1 : (processNeighbor cur d t n).graph = addEdge t.graph cur n := by
        simp [processNeighbor, hn, hdn]
      refine ⟨⟨?_, ?_⟩, ?_⟩
      · intro e he
        rw [hg1] at he
        rw [hv1]
        rcases mem_edges_addEdge.mp he with he' | rfl
        · exact hE e he'
        · exact ⟨d, hcur, by rw [← hdn]; exact hn⟩
      · intro q hq
        rw [hq1] at hq
        rw [hv1]
        exact hQ q hq
      · rw [hv1]
        exact hcur
    · have ht : processNeighbor cur d t n = t := by
        simp [processNeighbor, hn, hdn]
      rw [ht]
      exact ⟨⟨hE, hQ⟩, hcur⟩

theorem foldl_processNeighbor_inv1 (cur : List Char) (d : Nat) (ns : List (List Char)) :
    ∀ t : BfsState, vlookup t.visited cur = some d → Inv1 t →
      Inv1 (ns.foldl (processNeighbor cur d) t) := by
  induction ns with
  | nil =>
    intro t _ h
    exact h
  | cons n ns ih =>
    intro t hcur h
    rw [List.foldl_cons]
    obtain ⟨h', hcur'⟩ := processNeighbor_inv1 n hcur h
    exact ih _ hcur' h'

theorem bfsRun_inv1 (V : List (List Char)) (dep : Nat) :
    ∀ (fuel : Nat) (s : BfsState), Inv1 s → Inv1 (bfsRun V dep fuel s) := by
  intro fuel
  induction fuel with
  | zero =>
    intro s h
    exact h
  | succ m ih =>
    intro s h
    cases hq : s.queue with
    | nil =>
      rw [bfsRun_queue_nil hq]
      exact h
    | cons hd rest =>
      obtain ⟨cur, d⟩ := hd
      by_cases hdep : dep ≤ d
      · rw [bfsRun_succ_skip hq hdep]
        apply ih
        refine ⟨h.1, ?_⟩
        intro q hq'
        exact h.2 q (by rw [hq]; exact List.mem_cons_of_mem _ hq')
      · rw [bfsRun_succ_expand hq hdep]
        apply ih
        apply foldl_processNeighbor_inv1
        · exact h.2 (cur, d) (by rw [hq]; exact List.mem_cons_self _ _)
        · refine ⟨h.1, ?_⟩
          intro q hq'
          exact h.2 q (by rw [hq]; exact List.mem_cons_of_mem _ hq')

theorem bfsRun_visited_mono (V : List (List Char)) (dep : Nat) :
    ∀ (fuel : Nat) (s : BfsState) (k : List Char) (r : Nat),
      vlookup s.visited k = some r → vlookup (bfsRun V dep fuel s).visited k = some r := by
  intro fuel
  induction fuel with
  | zero =>
    intro s k r h
    exact h
  | succ m ih =>
    intro s k r h
    cases hq : s.queue with
    | nil =>
      rw [bfsRun_queue_nil hq]
      exact h
    | cons hd rest =>
      obtain ⟨cur, d⟩ := hd
      by_cases hdep : dep ≤ d
      · rw [bfsRun_succ_skip hq hdep]
        exact ih _ k r h
      · rw [bfsRun_succ_expand hq hdep]
        obtain ⟨new, _, hv, _, _, _, _⟩ := foldl_processNeighbor_shape cur d
          (get_neighbors cur V) { s with queue := rest, expanded := s.expanded ++ [cur] }
        apply ih
        rw [hv]
        exact vlookup_append_some _ h

theorem bfsRun_add (V : List (List Char)) (dep : Nat) :
    ∀ (a b : Nat) (s : BfsState),
      bfsRun V dep (a + b) s = bfsRun V dep b (bfsRun V dep a s) := by
  intro a
  induction a with
  | zero =>
    intro b s
    rw [Nat.zero_add]
    rfl
  | succ m ih =>
    intro b s
    cases hq : s.queue with
    | nil => rw [bfsRun_queue_nil hq, bfsRun_queue_nil hq, bfsRun_queue_nil hq]
    | cons hd rest =>
      obtain ⟨cur, d⟩ := hd
      by_cases hdep : dep ≤ d
      · rw [show m + 1 + b = (m + b) + 1 from by omega, bfsRun_succ_skip hq hdep,
          bfsRun_succ_skip hq hdep, ih]
      · rw [show m + 1 + b = (m + b) + 1 from by omega, bfsRun_succ_expand hq hdep,
          bfsRun_succ_expand hq hdep, ih]

/-- C1: every edge of a generated graph goes from a node first discovered
at some depth `d` to a node first discovered at depth `d + 1` (so edges
are strictly layered and never point into a shallower layer), and a
node's recorded depth never changes as the run continues. -/
theorem generate_graph_edges_layered (p : List Char) (dep : Nat) (D : List (List Char))
    (fuel fuel' : Nat) (hf : fuel ≤ fuel') :
    (∀ u v, (u, v) ∈ (generate_graph p dep D fuel).edges →
      ∃ d, vlookup (bfsRun D dep fuel (initState p)).visited u = some d ∧
        vlookup (bfsRun D dep fuel (initState p)).visited v = some (d + 1)) ∧
    (∀ k r, vlookup (bfsRun D dep fuel (initState p)).visited k = some r →
      vlookup (bfsRun D dep fuel' (initState p)).visited k = some r) := by
  have hinit : Inv1 (initState p) := by
    constructor
    · intro e he
      simp [initState] at he
    · intro q hq
      rw [show (initState p).queue = [(normalize_phrase p, 0)] from rfl,
        List.mem_singleton] at hq
      subst hq
      show vlookup (initState p).visited (normalize_phrase p) = some 0
      rw [show (initState p).visited = [(normalize_phrase p, 0)] from rfl, vlookup, if_pos rfl]
  constructor
  · intro u v hm
    exact (bfsRun_inv1 D dep fuel (initState p) hinit).1 (u, v) hm
  · intro k r h
    obtain ⟨m, rfl⟩ := Nat.exists_eq_add_of_le hf
    rw [bfsRun_add]
    exact bfsRun_visited_mono D dep m _ k r h

/-- Witness for C1 at a concrete input: the edge ("Cat", "Bat") of the
depth-1 example graph connects depth 0 to depth 1, and "Cat" keeps depth 0
at larger fuel. -/
theorem generate_graph_edges_layered_witness :
    (∃ d, vlookup (bfsRun dictCat 1 7 (initState "Cat".toList)).visited "Cat".toList = some d ∧
      vlookup (bfsRun dictCat 1 7 (initState "Cat".toList)).visited "Bat".toList =
        some (d + 1)) ∧
    vlookup (bfsRun dictCat 1 9 (initState "Cat".toList)).visited "Cat".toList = some 0 :=
  ⟨(generate_graph_edges_layered "Cat".toList 1 dictCat 7 9 (by decide)).1
      "Cat".toList "Bat".toList (by decide),
    (generate_graph_edges_layered "Cat".toList 1 dictCat 7 9 (by decide)).2
      "Cat".toList 0 (by decide)⟩

/-! ## Termination and single expansion: claim C9 -/

theorem vlookup_append_ne_none {v : List (List Char × Nat)} {k : List Char}
    (w : List (List Char × Nat)) (h : vlookup v k ≠ none) : vlookup (v ++ w) k ≠ none := by
  cases hv : vlookup v k with
  | none => exact absurd hv h
  | some r =>
    rw [vlookup_append_some w hv]
    simp

theorem queueOk_tail {dep : Nat} {hd : List Char × Nat} {rest : List (List Char × Nat)}
    (h : QueueOk dep (hd :: rest)) : QueueOk dep rest := by
  obtain ⟨h1, h2, h3⟩ := h
  exact ⟨(List.pairwise_cons.mp h1).2,
    fun e he => h2 e (List.mem_cons_of_mem _ he),
    fun a ha b hb => h3 a (List.mem_cons_of_mem _ ha) b (List.mem_cons_of_mem _ hb)⟩

theorem queueOk_expand {dep d : Nat} {cur : List Char} {rest new : List (List Char × Nat)}
    (hok : QueueOk dep ((cur, d) :: rest)) (hdep : d < dep)
    (hnew : ∀ e ∈ new, e.2 = d + 1) : QueueOk dep (rest ++ new) := by
  obtain ⟨h1, h2, h3⟩ := hok
  obtain ⟨hhead, h1'⟩ := List.pairwise_cons.mp h1
  have hrest_le : ∀ a ∈ rest, a.2 ≤ d + 1 := by
    intro a ha
    have hx : a.2 ≤ d + 1 :=
      h3 a (List.mem_cons_of_mem _ ha) (cur, d) (List.mem_cons_self _ _)
    exact hx
  refine ⟨?_, ?_, ?_⟩
  · rw [List.pairwise_append]
    refine ⟨h1', List.pairwise_of_forall_mem_list ?_, ?_⟩
    · intro a ha b hb
      have ha2 := hnew a ha
      have hb2 := hnew b hb
      omega
    · intro a ha b hb
      have hb2 := hnew b hb
      have ha2 := hrest_le a ha
      omega
  · intro e he
    rcases List.mem_append.mp he with he' | he'
    · exact h2 e (List.mem_cons_of_mem _ he')
    · have := hnew e he'
      omega
  · intro a ha b hb
    rcases List.mem_append.mp ha with ha' | ha' <;> rcases List.mem_append.mp hb with hb' | hb'
    · exact h3 a (List.mem_cons_of_mem _ ha') b (List.mem_cons_of_mem _ hb')
    · have h₁ := hrest_le a ha'
      have h₂ := hnew b hb'
      omega
    · have h₁ : d ≤ b.2 := hhead b hb'
      have h₂ := hnew a ha'
      omega
    · have h₁ := hnew a ha'
      have h₂ := hnew b hb'
      omega

theorem bfsRun_empties (V : List (List Char)) (dep : Nat) :
    ∀ (c₁ c₂ : Nat) (s : BfsState), QueueOk dep s.queue → qmeasure1 dep s.queue = c₁ →
      qmeasure2 s.queue = c₂ → ∃ N, (bfsRun V dep N s).queue = [] := by
  intro c₁
  induction c₁ using Nat.strong_induction_on with
  | _ c₁ ih₁ =>
    intro c₂
    induction c₂ using Nat.strong_induction_on with
    | _ c₂ ih₂ =>
      intro s hok h1 h2
      cases hq : s.queue with
      | nil => exact ⟨0, hq⟩
      | cons hd rest =>
        obtain ⟨cur, d⟩ := hd
        rw [hq] at hok h1 h2
        have hddep : d ≤ dep := hok.2.1 (cur, d) (List.mem_cons_self _ _)
        simp only [qmeasure1] at h1
        by_cases hdep : dep ≤ d
        · have hstep : ∀ N, bfsRun V dep (N + 1) s = bfsRun V dep N { s with queue := rest } :=
            fun N => bfsRun_succ_skip hq hdep
          cases rest with
          | nil =>
            obtain ⟨N, hN⟩ := ih₁ 0 (by omega) 0 { s with queue := ([] : List (List Char × Nat)) }
              ⟨List.Pairwise.nil, by simp, by simp⟩ rfl rfl
            exact ⟨N + 1, by rw [hstep N]; exact hN⟩
          | cons hd₂ rest₂ =>
            obtain ⟨p₂, d₂⟩ := hd₂
            have hd₂dep : d₂ ≤ dep :=
              hok.2.1 (p₂, d₂) (List.mem_cons_of_mem _ (List.mem_cons_self _ _))
            have hd₂ge : d ≤ d₂ :=
              (List.pairwise_cons.mp hok.1).1 (p₂, d₂) (List.mem_cons_self _ _)
            have hd₂eq : d₂ = d := by omega
            subst hd₂eq
            have hm1 : qmeasure1 dep ((p₂, d₂) :: rest₂) = c₁ := by
              simp only [qmeasure1]
              exact h1
            have hm2 : qmeasure2 ((p₂, d₂) :: rest₂) < c₂ := by
              rw [← h2]
              simp only [qmeasure2]
              rw [List.filter_cons_of_pos (by simp)]
              simp
            obtain ⟨N, hN⟩ := ih₂ _ hm2 { s with queue := (p₂, d₂) :: rest₂ }
              (queueOk_tail hok) hm1 rfl
            exact ⟨N + 1, by rw [hstep N]; exact hN⟩
        · have hdlt : d < dep := by omega
          obtain ⟨new, hq', hv', he', hd2', hfresh', hnd'⟩ :=
            foldl_processNeighbor_shape cur d (get_neighbors cur V)
              { s with queue := rest, expanded := s.expanded ++ [cur] }
          have hq'' : ((get_neighbors cur V).foldl (processNeighbor cur d)
              { s with queue := rest, expanded := s.expanded ++ [cur] }).queue =
                rest ++ new := hq'
          have hokx : QueueOk dep (rest ++ new) := queueOk_expand hok hdlt hd2'
          have hstep : ∀ N, bfsRun V dep (N + 1) s = bfsRun V dep N
              ((get_neighbors cur V).foldl (processNeighbor cur d)
                { s with queue := rest, expanded := s.expanded ++ [cur] }) :=
            fun N => bfsRun_succ_expand hq hdep
          cases rest with
          | nil =>
            cases hnewc : new with
            | nil =>
              refine ⟨0 + 1, ?_⟩
              rw [hstep 0]
              show ((get_neighbors cur V).foldl (processNeighbor cur d)
                { s with queue := [], expanded := s.expanded ++ [cur] }).queue = []
              rw [hq'', hnewc]
              rfl
            | cons e new' =>
              obtain ⟨p₃, d₃⟩ := e
              have hd₃ : d₃ = d + 1 := hd2' (p₃, d₃) (by rw [hnewc]; exact List.mem_cons_self _ _)
              have hlt : qmeasure1 dep ([] ++ new) < c₁ := by
                rw [hnewc]
                simp only [List.nil_append, qmeasure1]
                omega
              obtain ⟨N, hN⟩ := ih₁ _ hlt _
                ((get_neighbors cur V).foldl (processNeighbor cur d)
                  { s with queue := [], expanded := s.expanded ++ [cur] })
                (by rw [hq'']; exact hokx) (by rw [hq'']) rfl
              exact ⟨N + 1, by rw [hstep N]; exact hN⟩
          | cons hd₂ rest₂ =>
            obtain ⟨p₂, d₂⟩ := hd₂
            have hd₂dep : d₂ ≤ dep :=
              hok.2.1 (p₂, d₂) (List.mem_cons_of_mem _ (List.mem_cons_self _ _))
            have hd₂ge : d ≤ d₂ :=
              (List.pairwise_cons.mp hok.1).1 (p₂, d₂) (List.mem_cons_self _ _)
            by_cases hd₂d : d₂ = d
            · have hq1x : qmeasure1 dep (((p₂, d₂) :: rest₂) ++ new) = c₁ := by
                simp only [List.cons_append, qmeasure1]
                omega
              have hq2x : qmeasure2 (((p₂, d₂) :: rest₂) ++ new) < c₂ := by
                rw [← h2, hd₂d]
                simp only [List.cons_append, qmeasure2]
                rw [List.filter_cons_of_pos (by simp), List.filter_cons_of_pos (by simp),
                  List.filter_append]
                have hnil : new.filter (fun e => e.2 == d) = [] := by
                  rw [List.filter_eq_nil_iff]
                  intro a ha
                  have := hd2' a ha
                  simp [this]
                rw [hnil]
                simp
              obtain ⟨N, hN⟩ := ih₂ _ hq2x
                ((get_neighbors cur V).foldl (processNeighbor cur d)
                  { s with queue := (p₂, d₂) :: rest₂, expanded := s.expanded ++ [cur] })
                (by rw [hq'']; exact hokx) (by rw [hq'']; exact hq1x) (by rw [hq''])
              exact ⟨N + 1, by rw [hstep N]; exact hN⟩
            · have hlt : qmeasure1 dep (((p₂, d₂) :: rest₂) ++ new) < c₁ := by
                simp only [List.cons_append, qmeasure1]
                omega
              obtain ⟨N, hN⟩ := ih₁ _ hlt _
                ((get_neighbors cur V).foldl (processNeighbor cur d)
                  { s with queue := (p₂, d₂) :: rest₂, expanded := s.expanded ++ [cur] })
                (by rw [hq'']; exact hokx) (by rw [hq'']) rfl
              exact ⟨N + 1, by rw [hstep N]; exact hN⟩

theorem bfsRun_expOk (V : List (List Char)) (dep : Nat) :
    ∀ (fuel : Nat) (s : BfsState), ExpOk s → ExpOk (bfsRun V dep fuel s) := by
  intro fuel
  induction fuel with
  | zero =>
    intro s h
    exact h
  | succ m ih =>
    intro s h
    obtain ⟨hnd, hkeys⟩ := h
    cases hq : s.queue with
    | nil =>
      rw [bfsRun_queue_nil hq]
      exact ⟨hnd, hkeys⟩
    | cons hd rest =>
      obtain ⟨cur, d⟩ := hd
      rw [hq] at hnd hkeys
      have hnd' : (cur :: (rest.map Prod.fst ++ s.expanded)).Nodup := hnd
      have hkeys' : ∀ x ∈ cur :: (rest.map Prod.fst ++ s.expanded),
          vlookup s.visited x ≠ none := hkeys
      have hcur_notin : cur ∉ rest.map Prod.fst ++ s.expanded := (List.nodup_cons.mp hnd').1
      have htail_nd : (rest.map Prod.fst ++ s.expanded).Nodup := (List.nodup_cons.mp hnd').2
      by_cases hdep : dep ≤ d
      · rw [bfsRun_succ_skip hq hdep]
        apply ih
        refine ⟨htail_nd, ?_⟩
        intro x hx
        exact hkeys' x (List.mem_cons_of_mem _ hx)
      · rw [bfsRun_succ_expand hq hdep]
        apply ih
        obtain ⟨new, hq', hv', he', hd2', hfresh', hnewnd⟩ :=
          foldl_processNeighbor_shape cur d (get_neighbors cur V)
            { s with queue := rest, expanded := s.expanded ++ [cur] }
        have hnewfresh : ∀ k ∈ new.map Prod.fst, vlookup s.visited k = none := by
          intro k hk
          obtain ⟨e, he, rfl⟩ := List.mem_map.mp hk
          exact hfresh' e he
        have hrestK_nd : (rest.map Prod.fst).Nodup := (List.nodup_append.mp htail_nd).1
        have hexp_nd : s.expanded.Nodup := (List.nodup_append.mp htail_nd).2.1
        have hdisj_re : (rest.map Prod.fst).Disjoint s.expanded :=
          (List.nodup_append.mp htail_nd).2.2
        constructor
        · rw [hq', he']
          show (((rest ++ new).map Prod.fst) ++ (s.expanded ++ [cur])).Nodup
          rw [List.map_append]
          refine List.nodup_append.mpr ⟨List.nodup_append.mpr ⟨hrestK_nd, hnewnd, ?_⟩,
            List.nodup_append.mpr ⟨hexp_nd, List.nodup_singleton _, ?_⟩, ?_⟩
          · intro a ha₁ ha₂
            exact hkeys' a (List.mem_cons_of_mem _ (List.mem_append_left _ ha₁))
              (hnewfresh a ha₂)
          · intro a ha₁ ha₂
            rw [List.mem_singleton] at ha₂
            subst ha₂
            exact hcur_notin (List.mem_append_right _ ha₁)
          · intro a ha₁ ha₂
            rcases List.mem_append.mp ha₁ with h₁ | h₁ <;>
              rcases List.mem_append.mp ha₂ with h₂ | h₂
            · exact hdisj_re h₁ h₂
            · rw [List.mem_singleton] at h₂
              subst h₂
              exact hcur_notin (List.mem_append_left _ h₁)
            · exact hkeys' a (List.mem_cons_of_mem _ (List.mem_append_right _ h₂))
                (hnewfresh a h₁)
            · rw [List.mem_singleton] at h₂
              subst h₂
              exact hkeys' a (List.mem_cons_self _ _) (hnewfresh a h₁)
        · intro x hx
          rw [hq', he'] at hx
          rw [hv']
          have hx' : x ∈ ((rest ++ new).map Prod.fst) ++ (s.expanded ++ [cur]) := hx
          rw [List.map_append] at hx'
          rcases List.mem_append.mp hx' with h₁ | h₁
          · rcases List.mem_append.mp h₁ with h₂ | h₂
            · exact vlookup_append_ne_none _
                (hkeys' x (List.mem_cons_of_mem _ (List.mem_append_left _ h₂)))
            · show vlookup (s.visited ++ new) x ≠ none
              rw [vlookup_append_none _ (hnewfresh x h₂)]
              exact vlookup_ne_none_of_mem_keys h₂
          · rcases List.mem_append.mp h₁ with h₂ | h₂
            · exact vlookup_append_ne_none _
                (hkeys' x (List.mem_cons_of_mem _ (List.mem_append_right _ h₂)))
            · rw [List.mem_singleton] at h₂
              subst h₂
              exact vlookup_append_ne_none _ (hkeys' x (List.mem_cons_self _ _))

/-- C9: for every start phrase, depth bound and dictionary, the
breadth-first loop terminates — some finite fuel empties the queue — and,
at every fuel, the list of phrases that have been expanded (had their
neighbors computed) has no duplicates: no node is expanded twice. The
graph is a finite structure (finite node and edge lists) by construction. -/
theorem generate_graph_terminates (p : List Char) (dep : Nat) (D : List (List Char)) :
    (∃ N, (bfsRun D dep N (initState p)).queue = []) ∧
    ∀ fuel, ((bfsRun D dep fuel (initState p)).expanded).Nodup := by
  constructor
  · refine bfsRun_empties D dep (qmeasure1 dep (initState p).queue)
      (qmeasure2 (initState p).queue) (initState p) ⟨?_, ?_, ?_⟩ rfl rfl
    · exact List.pairwise_singleton _ _
    · intro e he
      have he' : e ∈ [(normalize_phrase p, 0)] := he
      rw [List.mem_singleton] at he'
      subst he'
      exact Nat.zero_le dep
    · intro a ha b hb
      have ha' : a ∈ [(normalize_phrase p, 0)] := ha
      rw [List.mem_singleton] at ha'
      subst ha'
      exact Nat.zero_le _
  · intro fuel
    have hinit : ExpOk (initState p) := by
      constructor
      · show ([normalize_phrase p] ++ []).Nodup
        simp
      · intro x hx
        have hx' : x ∈ [normalize_phrase p] ++ [] := hx
        simp only [List.append_nil, List.mem_singleton] at hx'
        subst hx'
        show vlookup [(normalize_phrase p, 0)] (normalize_phrase p) ≠ none
        rw [vlookup, if_pos rfl]
        simp
    have h := bfsRun_expOk D dep fuel (initState p) hinit
    exact (List.nodup_append.mp h.1).2.1

end HammingWeb
